import Mathlib

/-!
Verification of the yabot agent execution engine (src/yabot), shallowly
embedded in Lean 4.

The embedding follows the Python source:
  * `src/yabot/graph.py`   — `YabotGraph` (normalization, approval gate,
    tool execution, LLM loop, pending-approval resumption, planner gate)
  * `src/yabot/commands.py` — `trim_messages`
  * `src/yabot/tokens.py`   — token estimation

Modelling conventions, used throughout:
  * Python `str` is Lean `String`; character-level operations are defined
    on `String.data` because the core `String` functions do not reduce in
    the kernel.  Python's `str.lower` / `str.strip` / `str.split` are
    modelled character-wise with `Char.toLower` / `Char.isWhitespace`.
  * A message's `content` of Python `None` is modelled as `""`; the code
    only ever tests contents for truthiness or concatenates them, so the
    two are indistinguishable at the points embedded here.
  * Tool-call argument JSON text is embedded at the granularity the engine
    inspects it: `ArgsVal.invalid detail` stands for text that
    `json.loads` rejects (with `detail` the exception text) and
    `ArgsVal.parsed a` for a parsed object, `a` recording the fields the
    engine reads.  The engine never looks at any other part of the JSON.
  * `pathlib.Path(...).expanduser().resolve(strict=False)` is modelled by
    `canonicalize`, a purely syntactic resolver over path components
    (symlink resolution is not modelled; the filesystem is assumed
    symlink-free).  The current working directory and home directory are
    explicit parameters given as already-canonical component lists.
  * Effects (the LLM transport, `execute_tool_async`, the cross-agent
    tools, `AGENTS.md` reads) are oracles supplied in a `LoopEnv`; the LLM
    is a script of successive assistant messages, one consumed per
    completion request, and `none` results model a Python exception
    (a failed `assert`) or an exhausted script.
  * Functions additionally return an `invoked` log of the
    `execute_tool_async` dispatches they performed, so that "tool T was
    (not) executed" is a statement about the result.
-/

/-! ## Character-level string helpers (Python `str` operations) -/

/-- Python `str.lower`, character-wise (the engine only lowercases ASCII). -/
def strLower (s : String) : String := String.mk (s.data.map Char.toLower)

/-- Python `str.strip` on a character list. -/
def trimChars (l : List Char) : List Char :=
  ((l.dropWhile Char.isWhitespace).reverse.dropWhile Char.isWhitespace).reverse

/-- Python `str.strip`. -/
def strTrim (s : String) : String := String.mk (trimChars s.data)

/-- Number of occurrences of a character, Python `str.count` for a
single-character needle. -/
def countChar (s : String) (c : Char) : Nat := s.data.count c

/-- Python `len(text.split())`: the number of maximal whitespace-free runs. -/
def wordCountAux : List Char → Bool → Nat
  | [], _ => 0
  | c :: rest, inWord =>
      if c.isWhitespace then wordCountAux rest false
      else (if inWord then 0 else 1) + wordCountAux rest true

/-- Python `len(text.split())`. -/
def wordCount (s : String) : Nat := wordCountAux s.data false

/-- Contiguous-sublist test on character lists. -/
def infixCheck (needle : List Char) : List Char → Bool
  | [] => needle.isEmpty
  | c :: rest => needle.isPrefixOf (c :: rest) || infixCheck needle rest

/-- Python substring containment `needle in hay`. -/
def containsSub (needle hay : String) : Bool :=
  infixCheck needle.data hay.data

/-- Python `text.split("\n\n")` (non-overlapping, left to right). -/
def splitDoubleNL : List Char → List (List Char)
  | '\n' :: '\n' :: rest => [] :: splitDoubleNL rest
  | c :: rest =>
      match splitDoubleNL rest with
      | h :: t => (c :: h) :: t
      | [] => [[c]]
  | [] => [[]]

/-! ## Data model: roles, tool calls, messages (graph.py message dicts) -/

inductive Role where
  | system | user | assistant | tool
deriving DecidableEq, Repr

/-- The JSON argument fields the engine reads (`args.get(...)` targets).
Absent fields are `none`; `limit` is the only numeric field read. -/
structure ParsedArgs where
  command : Option String := none
  workdir : Option String := none
  path : Option String := none
  question : Option String := none
  agent : Option String := none
  model : Option String := none
  text : Option String := none
  limit : Option Int := none
deriving DecidableEq, Repr

/-- A tool call's raw `arguments` JSON text, at the granularity the engine
inspects it: either text `json.loads` rejects (carrying the exception
detail) or a parsed object. -/
inductive ArgsVal where
  | invalid (detail : String)
  | parsed (a : ParsedArgs)
deriving DecidableEq, Repr

/-- `json.loads(raw_args)` with `except JSONDecodeError: args = {}`
(the fallback used by the approval gate and the agents-file scan). -/
def argsOrEmpty : ArgsVal → ParsedArgs
  | .invalid _ => {}
  | .parsed a => a

/-- One entry of an assistant message's `tool_calls` list
(`{id, function: {name, arguments}}`). -/
structure ToolCall where
  id : String
  name : String
  args : ArgsVal
deriving DecidableEq, Repr

/-- A conversation message dict.  `content = ""` models Python `None`;
`toolCalls = []` models an absent `tool_calls` key; `toolCallId = ""`
models an absent `tool_call_id` (only `tool` messages carry the key). -/
structure Message where
  role : Role
  content : String := ""
  toolCalls : List ToolCall := []
  toolCallId : String := ""
deriving DecidableEq, Repr

/-- A rough rendering of an `ArgsVal` back to text, standing in for the raw
`arguments` string in transcript notices (no claim depends on its exact
form). -/
def argsRepr : ArgsVal → String
  | .invalid d => d
  | .parsed a =>
      (a.command.getD "") ++ (a.workdir.getD "") ++ (a.path.getD "") ++
      (a.question.getD "") ++ (a.agent.getD "") ++ (a.model.getD "") ++
      (a.text.getD "")

/-! ## Path model (`pathlib.Path(...).expanduser().resolve(strict=False)`)

A canonical path is a list of components, each a slash-free, nonempty,
non-`.`/`..` character list; `[]` is the filesystem root. -/

/-- Python `"...".split("/")` on characters: chunks between slashes. -/
def splitSlash : List Char → List (List Char)
  | [] => [[]]
  | c :: rest =>
      if c = '/' then [] :: splitSlash rest
      else
        match splitSlash rest with
        | h :: t => (c :: h) :: t
        | [] => [[c]]

/-- A well-formed canonical path component. -/
def cleanComp (c : List Char) : Bool :=
  decide (c ≠ []) && decide (c ≠ ['.']) && decide (c ≠ ['.', '.']) && !(c.contains '/')

/-- All components well-formed. -/
def cleanPath (l : List (List Char)) : Bool := l.all cleanComp

/-- `Path.resolve` component processing: skip empty and `.` segments, let
`..` pop (popping at the root is a no-op, as in POSIX resolution). -/
def resolveComps (stack : List (List Char)) : List (List Char) → List (List Char)
  | [] => stack
  | c :: rest =>
      if c = [] ∨ c = ['.'] then resolveComps stack rest
      else if c = ['.', '.'] then resolveComps stack.dropLast rest
      else resolveComps (stack ++ [c]) rest

/-- `Path(p).expanduser().resolve(strict=False)` over an explicit current
working directory and home directory (both canonical component lists):
absolute paths resolve from the root, `~`-prefixed paths from `home`,
relative paths from `cwd`. -/
def canonicalizeC (cwd home : List (List Char)) (p : List Char) : List (List Char) :=
  match p with
  | '/' :: _ => resolveComps [] (splitSlash p)
  | _ =>
      if p = ['~'] then home
      else if p.take 2 = ['~', '/'] then resolveComps home (splitSlash (p.drop 2))
      else resolveComps cwd (splitSlash p)

def canonicalize (cwd home : List (List Char)) (p : String) : List (List Char) :=
  canonicalizeC cwd home p.data

/-- `str(path)` of a canonical path: `/`-joined components with a leading
slash (`"/"` for the root). -/
def intercalateSlash : List (List Char) → List Char
  | [] => []
  | [c] => c
  | c :: rest => c ++ '/' :: intercalateSlash rest

def renderPath (l : List (List Char)) : String := String.mk ('/' :: intercalateSlash l)

/-! ## Approval ledger (graph.py `_shell_key` .. `_approve_dir`) -/

/-- The per-room approvals record (`state["approvals"]`); the pending
record is threaded separately. -/
structure Approvals where
  shell : List String := []
  dirs : List String := []
deriving DecidableEq, Repr

/-- graph.py `_shell_key`: `f"{command}\n{workdir or ''}"`. -/
def shell_key (command : String) (workdir : Option String) : String :=
  command ++ "\n" ++ workdir.getD ""

/-- graph.py `_is_shell_approved`. -/
def is_shell_approved (a : Approvals) (command : String) (workdir : Option String) : Bool :=
  shell_key command workdir ∈ a.shell

/-- graph.py `_approve_shell` (append the key if not already present). -/
def approve_shell (a : Approvals) (command : String) (workdir : Option String) : Approvals :=
  let key := shell_key command workdir
  if key ∈ a.shell then a else { a with shell := a.shell ++ [key] }

/-- graph.py `_is_dir_approved`: canonicalize the query and every stored
entry, and accept if the query equals or is a descendant
(`is_relative_to`) of any stored directory. -/
def is_dir_approved (cwd home : List (List Char)) (a : Approvals) (path : String) : Bool :=
  let target := canonicalize cwd home path
  a.dirs.any fun approved =>
    let approvedPath := canonicalize cwd home approved
    target == approvedPath || approvedPath.isPrefixOf target

/-- graph.py `_approve_dir` (store `str(resolved)`, appending if new). -/
def approve_dir (cwd home : List (List Char)) (a : Approvals) (path : String) : Approvals :=
  let normalized := renderPath (canonicalize cwd home path)
  if normalized ∈ a.dirs then a else { a with dirs := a.dirs ++ [normalized] }

/-! ## Approval gate (graph.py `_required_dir_for_tool`, `_first_missing_approval`) -/

/-- An approval request (`{"kind": ..., ...}`), or the `ask_user`
suspension request. -/
inductive ApprovalRequest where
  | shell (command : String) (workdir : Option String)
  | dir (dir : String)
  | askUser (toolCallId : String)
deriving DecidableEq, Repr

/-- graph.py `_required_dir_for_tool`: the canonical target for
`list_dir`/`create_dir`, its parent for `read_file`/`write_file`, `none`
when `path` is absent or empty. -/
def required_dir_for_tool (cwd home : List (List Char)) (name : String) (a : ParsedArgs) :
    Option (List (List Char)) :=
  match a.path with
  | none => none
  | some p =>
      if p = "" then none
      else
        let target := canonicalize cwd home p
        if name = "read_file" ∨ name = "write_file" then some target.dropLast
        else some target

/-- The built-in tools whose calls are exempt from approval. -/
def safeToolNames : List String :=
  ["ask_user", "agent_ask", "agent_set_model", "agent_recent_tool_calls"]

/-- The filesystem tools gated by directory approval. -/
def fsToolNames : List String := ["list_dir", "read_file", "write_file", "create_dir"]

/-- graph.py `_first_missing_approval`: scan the batch in order, skip skill
tools and safe tools, and return the first uncovered shell or directory
request. -/
def first_missing_approval (cwd home : List (List Char)) (skillTools : List String)
    (a : Approvals) : List ToolCall → Option ApprovalRequest
  | [] => none
  | c :: rest =>
      if c.name ∈ skillTools ∨ c.name ∈ safeToolNames then
        first_missing_approval cwd home skillTools a rest
      else
        let args := argsOrEmpty c.args
        if c.name = "run_shell" then
          let command := args.command.getD ""
          let workdir := args.workdir
          if is_shell_approved a command workdir then
            first_missing_approval cwd home skillTools a rest
          else some (.shell command workdir)
        else if c.name ∈ fsToolNames then
          match required_dir_for_tool cwd home c.name args with
          | some d =>
              if is_dir_approved cwd home a (renderPath d) then
                first_missing_approval cwd home skillTools a rest
              else some (.dir (renderPath d))
          | none => first_missing_approval cwd home skillTools a rest
        else first_missing_approval cwd home skillTools a rest

/-- The approval scope of one tool call, written from the specification's
words: `none` for skill/safe/unscoped calls, the `(command, workdir)` pair
for a shell call, the target directory itself for `list_dir`/`create_dir`
and the target's parent for `read_file`/`write_file`. -/
def requestScopeSpec (cwd home : List (List Char)) (skillTools : List String)
    (c : ToolCall) : Option ApprovalRequest :=
  if c.name ∈ skillTools ∨ c.name ∈ safeToolNames then none
  else
    let args := argsOrEmpty c.args
    if c.name = "run_shell" then some (.shell (args.command.getD "") args.workdir)
    else if c.name ∈ fsToolNames then
      (required_dir_for_tool cwd home c.name args).map fun d => .dir (renderPath d)
    else none

/-- Whether the ledger already covers a request, written from the
specification's words. -/
def coveredBySpec (cwd home : List (List Char)) (a : Approvals) : ApprovalRequest → Bool
  | .shell command workdir => is_shell_approved a command workdir
  | .dir d => is_dir_approved cwd home a d
  | .askUser _ => true

/-- The approval gate, written from the specification's words: the first
scoped request in emission order that the ledger does not cover. -/
def first_missing_approval_spec (cwd home : List (List Char)) (skillTools : List String)
    (a : Approvals) (calls : List ToolCall) : Option ApprovalRequest :=
  (calls.filterMap fun c =>
    match requestScopeSpec cwd home skillTools c with
    | some r => if coveredBySpec cwd home a r then none else some r
    | none => none).head?

/-! ## Token estimation and history trimming (tokens.py, commands.py) -/

/-- A model, as the trimmer sees it: a context window and a token encoder.
`encode s` abstracts `len(encoding.encode(s))` of tiktoken. -/
structure Model where
  contextWindow : Nat
  encode : String → Nat

def TOKENS_PER_MESSAGE : Nat := 3
def PRIMING_TOKENS : Nat := 3

/-- tokens.py `output_reserve_tokens`: `max(2048, int(context_window * 0.1))`
(the float truncation is modelled as natural division by 10). -/
def output_reserve_tokens (contextWindow : Nat) : Nat :=
  max 2048 (contextWindow / 10)

def roleString : Role → String
  | .system => "system" | .user => "user" | .assistant => "assistant" | .tool => "tool"

/-- A stand-in for Python `str(tool_calls_list)` (the exact serialization
is irrelevant: `Model.encode` is arbitrary). -/
def toolCallsRepr (tcs : List ToolCall) : String :=
  String.intercalate "," (tcs.map fun c => c.id ++ ":" ++ c.name ++ ":" ++ argsRepr c.args)

/-- tokens.py `estimate_message_tokens`: per-message overhead plus the
encoded length of each present field (`tool_calls` present only when
nonempty, `tool_call_id` only on tool messages; no message carries a
`name` field). -/
def estimate_message_tokens (model : Model) (m : Message) : Nat :=
  TOKENS_PER_MESSAGE + model.encode (roleString m.role) + model.encode m.content +
    (if m.toolCalls = [] then 0 else model.encode (toolCallsRepr m.toolCalls)) +
    (if m.role = .tool then model.encode m.toolCallId else 0)

def sumTokens (model : Model) (l : List Message) : Nat :=
  (l.map (estimate_message_tokens model)).sum

/-- tokens.py `estimate_messages_tokens`: `0` for an empty list, otherwise
the per-message sum plus the fixed priming overhead. -/
def estimate_messages_tokens (model : Model) (l : List Message) : Nat :=
  match l with
  | [] => 0
  | _ => sumTokens model l + PRIMING_TOKENS

/-- commands.py `trim_messages` line 239: `max(0, context_window - reserve)`. -/
def inputBudget (model : Model) : Nat :=
  model.contextWindow - output_reserve_tokens model.contextWindow

/-- One eviction loop of commands.py `trim_messages`: pop the head while
`fixed` (the other class's total) plus the list's total exceeds the
budget. -/
def dropOverBudget (model : Model) (budget fixed : Nat) : List Message → List Message
  | [] => []
  | m :: rest =>
      if budget < fixed + estimate_message_tokens model m + sumTokens model rest then
        dropOverBudget model budget fixed rest
      else m :: rest

/-- commands.py `trim_messages`.  `other[-(max_turns * 2):]` keeps the
whole list when `max_turns * 2 = 0` (Python `-0` slicing), hence the
case split. -/
def trim_messages (messages : List Message) (model : Model) (maxTurns : Nat) : List Message :=
  let sysMsgs := messages.filter fun m => m.role = Role.system
  let other := messages.filter fun m => ¬ m.role = Role.system
  let keep := if maxTurns * 2 = 0 then other else other.drop (other.length - maxTurns * 2)
  let kept := sysMsgs ++ keep
  let budget := inputBudget model
  if estimate_messages_tokens model kept ≤ budget then kept
  else
    let sys2 := kept.filter fun m => m.role = Role.system
    let other2 := kept.filter fun m => ¬ m.role = Role.system
    let other3 := dropOverBudget model budget (sumTokens model sys2) other2
    let sys3 := dropOverBudget model budget (sumTokens model other3) sys2
    sys3 ++ other3

/-- Whether every system message precedes every non-system message (the
shape the engine maintains, since system prompts are prepended). -/
def systemFirst (msgs : List Message) : Bool :=
  (msgs.dropWhile fun m => m.role = Role.system).all fun m => ¬ m.role = Role.system

/-! ## Transport normalization (graph.py `_assistant_without_tool_calls`,
`_normalize_messages_for_llm`) -/

def isToolMsg (m : Message) : Bool := m.role = Role.tool

/-- graph.py `_assistant_without_tool_calls`: strip `tool_calls` down to
the natural-language content, dropping the message when it has none
(non-assistant messages pass through). -/
def assistant_without_tool_calls (m : Message) : Option Message :=
  if m.role ≠ Role.assistant then some m
  else if m.toolCalls = [] then some m
  else if m.content = "" then none
  else some { role := Role.assistant, content := m.content }

/-- The ids of an assistant's tool calls that are nonempty
(`expected_ids`). -/
def expectedIds (tcs : List ToolCall) : List String :=
  (tcs.filter fun c => c.id ≠ "").map ToolCall.id

/-- The nonempty `tool_call_id`s present in a tool block (`tool_ids`). -/
def blockIds (block : List Message) : List String :=
  (block.filter fun m => m.toolCallId ≠ "").map Message.toolCallId

/-- The state of the normalization scan: `some (asst, blockRev)` while
collecting the contiguous tool block that follows an assistant message
carrying `tool_calls` (the block in reverse); `none` otherwise.  This is
the inner `while`-loop of graph.py `_normalize_messages_for_llm` made
explicit. -/
def flushSeg : Option (Message × List Message) → List Message
  | none => []
  | some (asst, blockRev) =>
      let block := blockRev.reverse
      if expectedIds asst.toolCalls ≠ [] ∧
          (expectedIds asst.toolCalls).all (fun i => i ∈ blockIds block) then
        asst :: block
      else (assistant_without_tool_calls asst).toList

/-- graph.py `_normalize_messages_for_llm` as a left-to-right scan.  `none`
models an `AssertionError` (a top-level tool message without
`tool_call_id`, or a tool call without a function name).  An assistant
message carrying `tool_calls` opens a pending block; the following
contiguous tool messages are collected into it; at the first non-tool
message (or the end) the block is flushed: kept whole when the assistant
has some nonempty call id and every such id is answered in the block,
otherwise dropped with the assistant stripped to its content.  Top-level
tool messages are dropped. -/
def normSt (pend : Option (Message × List Message)) :
    List Message → Option (List Message)
  | [] => some (flushSeg pend)
  | m :: rest =>
      if m.role = Role.tool then
        match pend with
        | some (asst, blockRev) => normSt (some (asst, m :: blockRev)) rest
        | none =>
            if m.toolCallId = "" then none
            else normSt none rest
      else
        let seg := flushSeg pend
        if m.role = Role.assistant ∧ m.toolCalls ≠ [] then
          if m.toolCalls.all (fun c => c.name ≠ "") then
            (normSt (some (m, [])) rest).map fun tail => seg ++ tail
          else none
        else (normSt none rest).map fun tail => seg ++ m :: tail

def normalize_messages_for_llm (msgs : List Message) : Option (List Message) :=
  normSt none msgs

/-- The transport ordering invariant as the specification states it,
scanned left to right: `some ids` holds the `tool_calls` ids of the most
recent assistant message when only tool messages have followed it; every
tool message must find its `tool_call_id` there. -/
def toolOrderingOKSt (allowed : Option (List String)) : List Message → Bool
  | [] => true
  | m :: rest =>
      if m.role = Role.tool then
        match allowed with
        | none => false
        | some ids => m.toolCallId ∈ ids && toolOrderingOKSt (some ids) rest
      else if m.role = Role.assistant ∧ m.toolCalls ≠ [] then
        toolOrderingOKSt (some (m.toolCalls.map ToolCall.id)) rest
      else toolOrderingOKSt none rest

/-- C1's invariant: every tool message is immediately preceded (possibly
after other tool messages) by an assistant message whose `tool_calls`
contain its `tool_call_id`. -/
def toolOrderingOK (msgs : List Message) : Bool := toolOrderingOKSt none msgs

/-- Closing check of a pending block: the assistant must have some
nonempty expected id and each expected id must appear among the collected
tool ids. -/
def checkPend : Option (List String × List String) → Bool
  | none => true
  | some (exp, seen) => decide (exp ≠ []) && exp.all (fun i => i ∈ seen)

/-- The invariant the normalizer actually establishes, scanned left to
right: every tool message sits in a contiguous block opened by an
assistant message carrying `tool_calls`, that assistant has some nonempty
call id, and each of its nonempty call ids is answered within the block
(the block may also hold extra tool messages with foreign ids). -/
def toolBlocksOKSt (pend : Option (List String × List String)) : List Message → Bool
  | [] => checkPend pend
  | m :: rest =>
      if m.role = Role.tool then
        match pend with
        | none => false
        | some (exp, seen) => toolBlocksOKSt (some (exp, m.toolCallId :: seen)) rest
      else
        checkPend pend &&
          (if m.role = Role.assistant ∧ m.toolCalls ≠ [] then
            toolBlocksOKSt (some (expectedIds m.toolCalls, [])) rest
          else toolBlocksOKSt none rest)

def toolBlocksOK (msgs : List Message) : Bool := toolBlocksOKSt none msgs


/-! ## Skills and the effect environment -/

/-- One catalog entry of skills.py `SkillRegistry` (tool name, display
name, instruction body). -/
structure Skill where
  toolName : String
  name : String
  content : String
deriving DecidableEq, Repr

def isSkillTool (skills : List Skill) (name : String) : Bool :=
  skills.any fun s => s.toolName = name

def getSkillByToolName (skills : List Skill) (name : String) : Option Skill :=
  skills.find? fun s => s.toolName = name

/-- The collaborator effects of one turn, as oracles.  `execTool` stands
for `execute_tool_async`; `setModelOk`, `recentCalls` and `agentAsk` stand
for the cross-agent meta-tool outcomes; `shellNotice` stands for the
payload inspection that derives a system-visible notice from a `run_shell`
result; `agentsFile` stands for reading a directory's stripped, nonempty
`AGENTS.md` body. -/
structure LoopEnv where
  skills : List Skill
  execTool : String → ParsedArgs → String
  setModelOk : String → String → Bool
  recentCalls : String → Int → String
  agentAsk : String → String → String
  shellNotice : String → Option String
  agentsFile : List (List Char) → Option String

/-- The fixed catalog of built-in tool names asserted known by
graph.py `_execute_tool_calls`. -/
def knownToolNames : List String :=
  ["ask_user", "agent_ask", "agent_set_model", "agent_recent_tool_calls",
   "list_dir", "read_file", "write_file", "create_dir", "get_skills_dir", "run_shell"]

/-- What executing a batch produced: the tool-result messages, the
skill-injected system messages, the system-visible notices, and the log of
`execute_tool_async` dispatches performed. -/
structure ExecOutcome where
  toolMessages : List Message
  systemMessages : List Message
  notices : List String
  invoked : List (String × ParsedArgs)
deriving Repr

/-- graph.py `_execute_tool_calls`, one call at a time; `none` models an
`AssertionError` (empty or unknown tool name).  Invalid argument JSON
yields the literal error result without dispatching; a skill tool injects
its body as a system message; the cross-agent tools answer through their
oracles; every other known tool goes through `execTool`
(`execute_tool_async`), which is also logged in `invoked`. -/
def execute_tool_calls (env : LoopEnv) : List ToolCall → Option ExecOutcome
  | [] => some ⟨[], [], [], []⟩
  | c :: rest =>
      if c.name = "" then none
      else if ¬ (isSkillTool env.skills c.name ∨ c.name ∈ knownToolNames) then none
      else
        match c.args with
        | .invalid detail =>
            (execute_tool_calls env rest).map fun out =>
              { out with
                toolMessages :=
                  ⟨Role.tool, "ERROR: invalid JSON arguments: " ++ detail, [], c.id⟩ ::
                    out.toolMessages }
        | .parsed args =>
            let (result, sysMsgs, inv) :=
              if isSkillTool env.skills c.name then
                match getSkillByToolName env.skills c.name with
                | some skill =>
                    ("Skill applied: " ++ skill.name,
                     [(⟨Role.system, skill.content, [], ""⟩ : Message)], [])
                | none => ("ERROR: unknown skill tool " ++ c.name, [], [])
              else if c.name = "agent_set_model" then
                let target := strLower (strTrim (args.agent.getD "main"))
                let mdl := strTrim (args.model.getD "")
                if target = "" ∨ mdl = "" then ("ERROR: agent and model are required", [], [])
                else if env.setModelOk target mdl then
                  ("Model set to `" ++ mdl ++ "` for `" ++ target ++ "`.", [], [])
                else ("ERROR: unknown model `" ++ mdl ++ "` or agent `" ++ target ++ "`", [], [])
              else if c.name = "agent_recent_tool_calls" then
                let target := strLower (strTrim (args.agent.getD "main"))
                let lim : Int := match args.limit with
                  | none => 10
                  | some n => if n = 0 then 10 else n
                (env.recentCalls target lim, [], [])
              else if c.name = "agent_ask" then
                let target := strLower (strTrim (args.agent.getD "main"))
                let txt := strTrim (args.text.getD "")
                if txt = "" then ("ERROR: text is required", [], [])
                else (env.agentAsk target txt, [], [])
              else (env.execTool c.name args, [], [(c.name, args)])
            let notices :=
              if c.name = "run_shell" then (env.shellNotice result).toList else []
            (execute_tool_calls env rest).map fun out =>
              { toolMessages := ⟨Role.tool, result, [], c.id⟩ :: out.toolMessages
                systemMessages := sysMsgs ++ out.systemMessages
                notices := notices ++ out.notices
                invoked := inv ++ out.invoked }

/-! ## AGENTS.md injection (graph.py `_agents_paths_for_tool_calls`,
`_inject_agents_messages`) -/

/-- graph.py `_agents_paths_for_tool_calls`: the directories a batch
touches — the raw `workdir` of a `run_shell` call, the (already canonical,
rendered) required directory of a filesystem call; calls with unparsable
arguments are skipped. -/
def agents_paths_for_tool_calls (cwd home : List (List Char)) :
    List ToolCall → List String
  | [] => []
  | c :: rest =>
      let tailPaths := agents_paths_for_tool_calls cwd home rest
      match c.args with
      | .invalid _ => tailPaths
      | .parsed args =>
          if c.name = "run_shell" then
            match args.workdir with
            | some w => if w = "" then tailPaths else w :: tailPaths
            | none => tailPaths
          else if c.name ∈ fsToolNames then
            match required_dir_for_tool cwd home c.name args with
            | some d => renderPath d :: tailPaths
            | none => tailPaths
          else tailPaths

/-- graph.py `_inject_agents_messages`: resolve each directory, read its
`AGENTS.md` (the oracle already strips and drops empty bodies), dedup on
the file path against `agentsLoaded`, and emit one system message per
newly loaded file.  Returns the updated dedup list and the injected
messages. -/
def inject_agents_messages (env : LoopEnv) (cwd home : List (List Char)) :
    List String → List String → List String × List Message
  | loaded, [] => (loaded, [])
  | loaded, p :: rest =>
      let dir := canonicalize cwd home p
      match env.agentsFile dir with
      | none => inject_agents_messages env cwd home loaded rest
      | some content =>
          let key := renderPath (dir ++ [("AGENTS.md".data)])
          if key ∈ loaded then inject_agents_messages env cwd home loaded rest
          else
            let msg : Message :=
              ⟨Role.system, "AGENTS.md instructions from " ++ key ++ ":\n" ++ content, [], ""⟩
            let (loaded2, msgs) := inject_agents_messages env cwd home (loaded ++ [key]) rest
            (loaded2, msg :: msgs)

/-! ## The LLM loop (graph.py `_run_llm_loop`) -/

/-- graph.py `_tool_call_notices`. -/
def tool_call_notices (tcs : List ToolCall) : List String :=
  tcs.map fun c =>
    "[system] Tool call: " ++ (if c.name = "" then "unknown" else c.name) ++ " " ++
      argsRepr c.args

/-- graph.py `_approval_prompt`. -/
def approval_prompt : ApprovalRequest → String
  | .shell command workdir =>
      let w := workdir.getD ""
      "Approve running shell command: `" ++ command ++ "`" ++
        (if w = "" then "" else " (workdir: " ++ w ++ ")") ++ "? Reply `y` to allow."
  | .dir d =>
      "Approve access to directory `" ++ d ++ "` (includes descendants)? Reply `y` to allow."
  | .askUser _ => "Approve requested action? Reply `y` to allow."

/-- The suspended continuation (`state["approvals"]["pending"]`): the
request, the captured assistant message, and — for an approval suspension —
the captured tool-call batch (empty for `ask_user`). -/
structure PendingRec where
  request : ApprovalRequest
  assistant : Option Message
  toolCalls : List ToolCall
deriving DecidableEq, Repr

/-- What one `_run_llm_loop` invocation returned: the response strings,
`new_messages` (`none` on suspension), the next pending record, the
notices, and the `execute_tool_async` log. -/
structure LoopResult where
  responses : List String
  newMessages : Option (List Message)
  pending : Option PendingRec
  toolNotices : List String
  invoked : List (String × ParsedArgs)
deriving Repr

/-- The loop's mutable locals (`working_messages`, `new_messages`,
`tool_notices`, the invocation log, `agents_loaded`, and the agent's
recorded tool-call history). -/
structure LoopState where
  working : List Message
  newMsgs : List Message
  notices : List String
  invoked : List (String × ParsedArgs)
  agentsLoaded : List String
  history : List ToolCall
deriving Repr

/-- The `ask_user` question of a call: the stripped `question` argument,
or the fixed fallback. -/
def questionOf (c : ToolCall) : String :=
  let q := strTrim ((argsOrEmpty c.args).question.getD "")
  if q = "" then "Can you clarify?" else q

/-- Outcome of handling one nonempty tool-call batch: either the loop
finishes (suspension) or continues with an updated state. -/
inductive BatchOutcome where
  | done (r : LoopResult)
  | more (st : LoopState)

/-- The `HAVE_TOOL_CALLS` phase of graph.py `_run_llm_loop` for one
nonempty batch: emit the notices; suspend on the first `ask_user` call
(before executing anything); otherwise suspend on the first missing
approval with the captured batch; otherwise inject newly touched
`AGENTS.md` files and execute the whole batch.  `none` models an
exception inside `_execute_tool_calls`. -/
def handleBatch (env : LoopEnv) (cwd home : List (List Char)) (appr : Approvals)
    (asst : Message) (tc : List ToolCall) (st : LoopState) : Option BatchOutcome :=
  let st := { st with notices := st.notices ++ tool_call_notices tc }
  match tc.find? fun c => c.name = "ask_user" with
  | some c =>
      some (.done ⟨[questionOf c], none, some ⟨.askUser c.id, some asst, []⟩,
        st.notices, st.invoked⟩)
  | none =>
      match first_missing_approval cwd home (env.skills.map Skill.toolName) appr tc with
      | some req =>
          some (.done ⟨[approval_prompt req], none, some ⟨req, some asst, tc⟩,
            st.notices, st.invoked⟩)
      | none =>
          let (loaded2, injected) :=
            inject_agents_messages env cwd home st.agentsLoaded
              (agents_paths_for_tool_calls cwd home tc)
          let st := { st with
            agentsLoaded := loaded2
            working := st.working ++ injected
            newMsgs := st.newMsgs ++ injected }
          match execute_tool_calls env tc with
          | none => none
          | some out =>
              some (.more { st with
                working := st.working ++ out.toolMessages ++ out.systemMessages
                newMsgs := st.newMsgs ++ out.toolMessages ++ out.systemMessages
                notices := st.notices ++ out.notices
                invoked := st.invoked ++ out.invoked })

/-- The `DONE` phase: split the final assistant text on blank lines,
falling back to the placeholder when it is empty. -/
def finalResponses (finalText : String) : List String :=
  let parts := (splitDoubleNL finalText.data).map fun l => String.mk (trimChars l)
  let nonEmpty := parts.filter fun p => p ≠ ""
  if strTrim finalText = "" then ["…(no output)"] else nonEmpty

def loopFinal (st : LoopState) : LoopResult :=
  let finalText := (st.working.getLast?.map Message.content).getD ""
  ⟨finalResponses finalText, some st.newMsgs, none, st.notices, st.invoked⟩

/-- The `AWAIT_MODEL` phase: normalize the working history (its assertion
failure propagates), consume the next scripted completion, record a
nonempty batch into the agent's tool-call history and handle it, and
otherwise finish. -/
def loopAwait (env : LoopEnv) (cwd home : List (List Char)) (appr : Approvals) :
    List Message → LoopState → Option LoopResult
  | [], _ => none
  | asst :: script, st =>
      match normalize_messages_for_llm st.working with
      | none => none
      | some _ =>
          if asst.toolCalls.all (fun c => c.name ≠ "") then
            let st := { st with
              working := st.working ++ [asst], newMsgs := st.newMsgs ++ [asst] }
            if asst.toolCalls = [] then some (loopFinal st)
            else
              -- commands.py `agent_record_tool_calls`: append, keep the last 50
              let h := st.history ++ asst.toolCalls
              let st := { st with history := if h.length > 50 then h.drop (h.length - 50) else h }
              match handleBatch env cwd home appr asst asst.toolCalls st with
              | none => none
              | some (.done r) => some r
              | some (.more st2) => loopAwait env cwd home appr script st2
          else none

/-- graph.py `_run_llm_loop`: entered either fresh (request a completion
for `messages`) or with a captured batch to replay
(`initial_tool_calls`/`initial_assistant` from an approved suspension). -/
def run_llm_loop (env : LoopEnv) (cwd home : List (List Char)) (appr : Approvals)
    (script : List Message) (messages : List Message)
    (initialToolCalls : Option (List ToolCall)) (initialAssistant : Option Message)
    (agentsLoaded : List String) : Option LoopResult :=
  let st0 : LoopState := ⟨messages, [], [], [], agentsLoaded, []⟩
  match initialToolCalls with
  | none => loopAwait env cwd home appr script st0
  | some tc =>
      let asst := initialAssistant.getD ⟨Role.assistant, "", tc, ""⟩
      let st := { st0 with working := messages ++ [asst], newMsgs := [asst] }
      if tc = [] then some (loopFinal st)
      else
        match handleBatch env cwd home appr asst tc st with
        | none => none
        | some (.done r) => some r
        | some (.more st2) => loopAwait env cwd home appr script st2

/-! ## Resuming a suspension (graph.py `_process_input`, pending branch) -/

/-- The synthetic denial turn appended on a non-`y` reply to an approval
prompt. -/
def denialMsg (incoming : String) : Message :=
  ⟨Role.user, "Approval denied. Feedback: " ++ incoming, [], ""⟩

/-- The synthetic tool message carrying the user's reply to an `ask_user`
suspension. -/
def askReplyMsg (toolCallId incoming : String) : Message :=
  ⟨Role.tool, incoming, [], toolCallId⟩

/-- What resolving a pending record produced: the responses, the next
pending record (the old one is always cleared first), the possibly
extended ledger, the updated conversation history, and the dispatch log. -/
structure ReplyOutcome where
  responses : List String
  pendingNext : Option PendingRec
  approvals : Approvals
  conv : List Message
  invoked : List (String × ParsedArgs)
deriving Repr

/-- The pending branch of graph.py `_process_input` (lines 787–909), for
the pending agent's active conversation `conv`.  An `ask_user` request
consumes the reply as the tool result and re-enters the loop fresh; a
`y` reply records the grant and replays the captured batch; any other
reply is denial-with-feedback: the captured batch is discarded, the
stripped assistant and a synthetic denial user message are appended, and
the loop re-enters fresh. -/
def process_pending_reply (env : LoopEnv) (cwd home : List (List Char))
    (appr : Approvals) (pending : PendingRec) (incoming : String)
    (conv : List Message) (model : Model) (maxTurns : Nat)
    (script : List Message) (agentsLoaded : List String) : Option ReplyOutcome :=
  match pending.request with
  | .askUser toolCallId =>
      let toolMsg := askReplyMsg toolCallId incoming
      let base := conv ++ pending.assistant.toList ++ [toolMsg]
      match run_llm_loop env cwd home appr script base none none agentsLoaded with
      | none => none
      | some r =>
          let conv2 := match r.pending, r.newMessages with
            | none, some nm =>
                trim_messages (conv ++ pending.assistant.toList ++ [toolMsg] ++ nm)
                  model maxTurns
            | _, _ => conv
          some ⟨r.toolNotices ++ r.responses, r.pending, appr, conv2, r.invoked⟩
  | req =>
      if strLower (strTrim incoming) = "y" then
        let appr2 := match req with
          | .shell command workdir => approve_shell appr command workdir
          | .dir d => approve_dir cwd home appr d
          | _ => appr
        match run_llm_loop env cwd home appr2 script conv (some pending.toolCalls)
            pending.assistant agentsLoaded with
        | none => none
        | some r =>
            let conv2 := match r.pending, r.newMessages with
              | none, some nm => trim_messages (conv ++ nm) model maxTurns
              | _, _ => conv
            some ⟨r.toolNotices ++ r.responses, r.pending, appr2, conv2, r.invoked⟩
      else
        let stripped := (pending.assistant.bind assistant_without_tool_calls).toList
        let base := conv ++ stripped ++ [denialMsg incoming]
        match run_llm_loop env cwd home appr script base none none agentsLoaded with
        | none => none
        | some r =>
            let conv2 := match r.pending, r.newMessages with
              | none, some nm =>
                  trim_messages (conv ++ stripped ++ [denialMsg incoming] ++ nm)
                    model maxTurns
              | _, _ => conv
            some ⟨r.toolNotices ++ r.responses, r.pending, appr, conv2, r.invoked⟩

/-! ## The planner's complexity gate (graph.py `_is_complex_task`) -/

def complexityKeywords : List String :=
  [" and ", " then ", " also ", " plus ", " after ", " before ", " while "]

/-- graph.py `_is_complex_task`. -/
def is_complex_task (text : String) : Bool :=
  if wordCount text ≥ 24 then true
  else if countChar text '\n' ≥ 2 then true
  else if countChar text '.' ≥ 2 then true
  else
    let lower := " " ++ strLower text ++ " "
    complexityKeywords.any fun k => containsSub k lower

/-! ## Concrete fixtures used by witnesses and counterexamples -/

/-- A concrete effect environment: no skills, constant oracles. -/
def envC : LoopEnv :=
  ⟨[], fun _ _ => "ok", fun _ _ => true, fun _ _ => "[]", fun _ _ => "ans",
    fun _ => none, fun _ => none⟩

/-- A concrete model: a 100000-token window and a zero-cost encoder. -/
def modelC : Model := ⟨100000, fun _ => 0⟩

/-! ## Theorems.  Helper lemmas about the trimmer. -/

theorem sumTokens_nil (model : Model) : sumTokens model [] = 0 := rfl

theorem sumTokens_cons (model : Model) (m : Message) (l : List Message) :
    sumTokens model (m :: l) = estimate_message_tokens model m + sumTokens model l := by
  simp [sumTokens]

theorem dropOverBudget_suffix (model : Model) (B fixed : Nat) (l : List Message) :
    dropOverBudget model B fixed l <:+ l := by
  induction l with
  | nil => exact List.suffix_refl _
  | cons m rest ih =>
      simp only [dropOverBudget]
      by_cases h : B < fixed + estimate_message_tokens model m + sumTokens model rest
      · rw [if_pos h]; exact ih.trans (List.suffix_cons m rest)
      · rw [if_neg h]

theorem dropOverBudget_le (model : Model) (B fixed : Nat) (l : List Message) :
    dropOverBudget model B fixed l = [] ∨
      fixed + sumTokens model (dropOverBudget model B fixed l) ≤ B := by
  induction l with
  | nil => left; rfl
  | cons m rest ih =>
      simp only [dropOverBudget]
      by_cases h : B < fixed + estimate_message_tokens model m + sumTokens model rest
      · rw [if_pos h]; exact ih
      · rw [if_neg h]; right; rw [sumTokens_cons]; omega

theorem dropOverBudget_noop (model : Model) (B fixed : Nat) (l : List Message)
    (h : fixed + sumTokens model l ≤ B) : dropOverBudget model B fixed l = l := by
  cases l with
  | nil => rfl
  | cons m rest =>
      simp only [dropOverBudget]
      rw [if_neg]
      rw [sumTokens_cons] at h
      omega

theorem filter_sys_append (a b : List Message)
    (ha : ∀ m ∈ a, m.role = Role.system) (hb : ∀ m ∈ b, m.role ≠ Role.system) :
    ((a ++ b).filter fun m => m.role = Role.system) = a ∧
      ((a ++ b).filter fun m => ¬ m.role = Role.system) = b := by
  constructor
  · rw [List.filter_append, List.filter_eq_self.mpr (by simpa using ha),
      List.filter_eq_nil_iff.mpr (by simpa using hb), List.append_nil]
  · rw [List.filter_append, List.filter_eq_nil_iff.mpr (by simpa using ha),
      List.filter_eq_self.mpr (by simpa using hb), List.nil_append]

/-- Everything `trim_messages` guarantees about its result: it is a block
of system messages followed by a block of non-system messages, each a
suffix (hence subsequence) of the corresponding role class of the input,
the non-system block respects the pair budget, and the result is within
the token budget in the appropriate sense. -/
theorem trim_result_form (messages : List Message) (model : Model) (maxTurns : Nat) :
    ∃ S O, trim_messages messages model maxTurns = S ++ O ∧
      (∀ m ∈ S, m.role = Role.system) ∧ (∀ m ∈ O, m.role ≠ Role.system) ∧
      (maxTurns * 2 = 0 ∨ O.length ≤ maxTurns * 2) ∧
      (estimate_messages_tokens model (S ++ O) ≤ inputBudget model ∨
        sumTokens model S + sumTokens model O ≤ inputBudget model) ∧
      S <:+ (messages.filter fun m => m.role = Role.system) ∧
      O <:+ (messages.filter fun m => ¬ m.role = Role.system) := by
  simp only [trim_messages]
  have hsysmem : ∀ m ∈ (messages.filter fun m => m.role = Role.system),
      m.role = Role.system := by
    intro m hm
    simpa using (List.mem_filter.mp hm).2
  have hothermem : ∀ m ∈ (messages.filter fun m => ¬ m.role = Role.system),
      m.role ≠ Role.system := by
    intro m hm
    simpa using (List.mem_filter.mp hm).2
  set sysF := messages.filter fun m => m.role = Role.system with hsysF
  set otherF := messages.filter fun m => ¬ m.role = Role.system with hotherF
  set keep := if maxTurns * 2 = 0 then otherF else otherF.drop (otherF.length - maxTurns * 2)
    with hkeep
  have hkeepsuffix : keep <:+ otherF := by
    rw [hkeep]
    by_cases h0 : maxTurns * 2 = 0
    · rw [if_pos h0]
    · rw [if_neg h0]; exact List.drop_suffix _ _
  have hkeepmem : ∀ m ∈ keep, m.role ≠ Role.system := fun m hm =>
    hothermem m (hkeepsuffix.subset hm)
  have hkeeplen : maxTurns * 2 = 0 ∨ keep.length ≤ maxTurns * 2 := by
    by_cases h0 : maxTurns * 2 = 0
    · exact Or.inl h0
    · right
      rw [hkeep, if_neg h0, List.length_drop]
      omega
  by_cases hfit :
      estimate_messages_tokens model (sysF ++ keep) ≤ inputBudget model
  · rw [if_pos hfit]
    exact ⟨sysF, keep, rfl, hsysmem, hkeepmem, hkeeplen, Or.inl hfit,
      List.suffix_refl _, hkeepsuffix⟩
  · rw [if_neg hfit]
    obtain ⟨hf1, hf2⟩ := filter_sys_append sysF keep hsysmem hkeepmem
    rw [hf1, hf2]
    set other3 := dropOverBudget model (inputBudget model) (sumTokens model sysF) keep
      with hother3
    set sys3 := dropOverBudget model (inputBudget model) (sumTokens model other3) sysF
      with hsys3
    have hs3suffix : sys3 <:+ sysF := dropOverBudget_suffix ..
    have ho3suffix : other3 <:+ keep := dropOverBudget_suffix ..
    have htotal : sumTokens model sys3 + sumTokens model other3 ≤ inputBudget model := by
      rcases dropOverBudget_le model (inputBudget model) (sumTokens model other3) sysF with
        hc | hd
      · rw [hsys3, hc, sumTokens_nil]
        rcases dropOverBudget_le model (inputBudget model) (sumTokens model sysF) keep with
          ha | hb
        · rw [hother3, ha, sumTokens_nil]; omega
        · rw [← hother3] at hb; omega
      · rw [← hsys3] at hd; omega
    exact ⟨sys3, other3, rfl,
      fun m hm => hsysmem m (hs3suffix.subset hm),
      fun m hm => hkeepmem m (ho3suffix.subset hm),
      hkeeplen.imp id (fun h => le_trans ho3suffix.length_le h),
      Or.inr htotal, hs3suffix, ho3suffix.trans hkeepsuffix⟩

/-- Any list already of the shape and budget `trim_messages` produces is a
fixed point of `trim_messages`. -/
theorem trim_fixed (S O : List Message) (model : Model) (maxTurns : Nat)
    (hS : ∀ m ∈ S, m.role = Role.system) (hO : ∀ m ∈ O, m.role ≠ Role.system)
    (hlen : maxTurns * 2 = 0 ∨ O.length ≤ maxTurns * 2)
    (hbud : estimate_messages_tokens model (S ++ O) ≤ inputBudget model ∨
      sumTokens model S + sumTokens model O ≤ inputBudget model) :
    trim_messages (S ++ O) model maxTurns = S ++ O := by
  obtain ⟨hf1, hf2⟩ := filter_sys_append S O hS hO
  simp only [trim_messages, hf1, hf2]
  have hkeep : (if maxTurns * 2 = 0 then O else O.drop (O.length - maxTurns * 2)) = O := by
    rcases hlen with h0 | hle
    · rw [if_pos h0]
    · by_cases h0 : maxTurns * 2 = 0
      · rw [if_pos h0]
      · rw [if_neg h0]
        have : O.length - maxTurns * 2 = 0 := by omega
        rw [this, List.drop_zero]
  rw [hkeep]
  by_cases hfit : estimate_messages_tokens model (S ++ O) ≤ inputBudget model
  · rw [if_pos hfit]
  · rw [if_neg hfit]
    have hsum : sumTokens model S + sumTokens model O ≤ inputBudget model :=
      hbud.resolve_left hfit
    rw [hf1, hf2]
    rw [dropOverBudget_noop model _ _ O hsum,
      dropOverBudget_noop model _ _ S (by omega)]

/-- C2: the history trimmer is idempotent, for every message list, every
model (context window and encoder) and every `max_turns`. -/
theorem trim_messages_idempotent (messages : List Message) (model : Model) (maxTurns : Nat) :
    trim_messages (trim_messages messages model maxTurns) model maxTurns =
      trim_messages messages model maxTurns := by
  obtain ⟨S, O, heq, hS, hO, hlen, hbud, -, -⟩ := trim_result_form messages model maxTurns
  rw [heq]
  exact trim_fixed S O model maxTurns hS hO hlen hbud

/-! ## C3: the trimmer and message order -/

/-- C3 (counterexample): `trim_messages` hoists system messages in front of
earlier non-system messages, so its output is not in general a
subsequence of its input. -/
theorem trim_messages_not_subsequence :
    trim_messages
        [{ role := Role.user, content := "u" }, { role := Role.system, content := "s" }]
        ⟨100000, fun _ => 0⟩ 1 =
      [{ role := Role.system, content := "s" }, { role := Role.user, content := "u" }] ∧
    ¬ List.Sublist
        (trim_messages
          [{ role := Role.user, content := "u" }, { role := Role.system, content := "s" }]
          ⟨100000, fun _ => 0⟩ 1)
        [{ role := Role.user, content := "u" }, { role := Role.system, content := "s" }] := by
  constructor
  · rfl
  · decide

/-- C3 (amended): whenever every system message precedes every non-system
message — the shape the engine maintains — the trimmed list is a
subsequence of the input; in general each role class separately keeps its
relative order (`trim_result_form`). -/
theorem trim_messages_sublist_of_systemFirst (messages : List Message) (model : Model)
    (maxTurns : Nat) (h : systemFirst messages = true) :
    List.Sublist (trim_messages messages model maxTurns) messages := by
  obtain ⟨S, O, heq, -, -, -, -, hSsuf, hOsuf⟩ := trim_result_form messages model maxTurns
  rw [heq]
  have hsplit :
      (messages.takeWhile fun m => m.role = Role.system) ++
        (messages.dropWhile fun m => m.role = Role.system) = messages :=
    List.takeWhile_append_dropWhile _ _
  have hta : ∀ m ∈ (messages.takeWhile fun m => m.role = Role.system),
      m.role = Role.system := by
    intro m hm
    simpa using List.mem_takeWhile_imp hm
  have htb : ∀ m ∈ (messages.dropWhile fun m => m.role = Role.system),
      m.role ≠ Role.system := by
    intro m hm
    have := (List.all_eq_true.mp h) m hm
    simpa using this
  obtain ⟨hf1, hf2⟩ :=
    filter_sys_append (messages.takeWhile fun m => m.role = Role.system)
      (messages.dropWhile fun m => m.role = Role.system) hta htb
  rw [hsplit] at hf1 hf2
  have hS2 : List.Sublist S (messages.takeWhile fun m => m.role = Role.system) := by
    rw [← hf1]; exact hSsuf.sublist
  have hO2 : List.Sublist O (messages.dropWhile fun m => m.role = Role.system) := by
    rw [← hf2]; exact hOsuf.sublist
  have hfin := hS2.append hO2
  rw [hsplit] at hfin
  exact hfin

/-- C3 (witness): the amended theorem applied at a concrete history. -/
theorem trim_messages_sublist_of_systemFirst_witness :
    systemFirst
        [{ role := Role.system, content := "s" }, { role := Role.user, content := "u" }] = true ∧
    List.Sublist
      (trim_messages
        [{ role := Role.system, content := "s" }, { role := Role.user, content := "u" }]
        ⟨100000, fun _ => 0⟩ 1)
      [{ role := Role.system, content := "s" }, { role := Role.user, content := "u" }] :=
  ⟨by decide, trim_messages_sublist_of_systemFirst _ ⟨100000, fun _ => 0⟩ 1 (by decide)⟩

/-! ## C1: transport normalization and the tool-message ordering invariant -/

theorem expectedIds_ne_empty (tcs : List ToolCall) :
    ∀ e ∈ expectedIds tcs, e ≠ "" := by
  intro e he
  simp only [expectedIds, List.mem_map, List.mem_filter] at he
  obtain ⟨c, ⟨-, hc⟩, rfl⟩ := he
  simpa using hc

theorem mem_blockIds (e : String) (block : List Message) (he : e ≠ "") :
    e ∈ blockIds block ↔ e ∈ block.map Message.toolCallId := by
  simp only [blockIds, List.mem_map, List.mem_filter]
  constructor
  · rintro ⟨m, ⟨hm, -⟩, rfl⟩
    exact ⟨m, hm, rfl⟩
  · rintro ⟨m, hm, rfl⟩
    exact ⟨m, ⟨hm, by simpa using he⟩, rfl⟩

theorem toolBlocksOKSt_start (pend : Option (List String × List String))
    (b : List Message) (hc : checkPend pend = true)
    (hb : toolBlocksOKSt none b = true) : toolBlocksOKSt pend b = true := by
  cases b with
  | nil => simpa [toolBlocksOKSt] using hc
  | cons m rest =>
      by_cases hm : m.role = Role.tool
      · simp [toolBlocksOKSt, hm] at hb
      · simp only [toolBlocksOKSt, if_neg hm] at hb ⊢
        rw [hc]
        simpa [checkPend] using hb

theorem toolBlocksOKSt_append (a : List Message) :
    ∀ (pend : Option (List String × List String)) (b : List Message),
      toolBlocksOKSt pend a = true → toolBlocksOKSt none b = true →
      toolBlocksOKSt pend (a ++ b) = true := by
  induction a with
  | nil =>
      intro pend b ha hb
      exact toolBlocksOKSt_start pend b (by simpa [toolBlocksOKSt] using ha) hb
  | cons m rest ih =>
      intro pend b ha hb
      by_cases hm : m.role = Role.tool
      · cases pend with
        | none => simp [toolBlocksOKSt, hm] at ha
        | some es =>
            simp only [List.cons_append, toolBlocksOKSt, if_pos hm] at ha ⊢
            exact ih _ b ha hb
      · simp only [List.cons_append, toolBlocksOKSt, if_neg hm, Bool.and_eq_true] at ha ⊢
        refine ⟨ha.1, ?_⟩
        rcases ha with ⟨-, ha2⟩
        by_cases hA : m.role = Role.assistant ∧ m.toolCalls ≠ []
        · rw [if_pos hA] at ha2 ⊢
          exact ih _ b ha2 hb
        · rw [if_neg hA] at ha2 ⊢
          exact ih _ b ha2 hb

theorem toolBlocksOKSt_toolrun (exp : List String) (block : List Message)
    (hall : ∀ m ∈ block, m.role = Role.tool) :
    ∀ seen, toolBlocksOKSt (some (exp, seen)) block =
      checkPend (some (exp, (block.map Message.toolCallId).reverse ++ seen)) := by
  induction block with
  | nil => intro seen; simp [toolBlocksOKSt]
  | cons m rest ih =>
      intro seen
      have hm : m.role = Role.tool := hall m (by simp)
      simp only [toolBlocksOKSt, if_pos hm]
      rw [ih (fun x hx => hall x (by simp [hx])) (m.toolCallId :: seen)]
      simp

/-- The segment a pending block flushes to always satisfies the block
invariant (under the scan's invariant on the pending state). -/
theorem flushSeg_blocks_ok (pend : Option (Message × List Message))
    (hinv : ∀ asst blockRev, pend = some (asst, blockRev) →
      asst.role = Role.assistant ∧ asst.toolCalls ≠ [] ∧
        ∀ m ∈ blockRev, m.role = Role.tool) :
    toolBlocksOKSt none (flushSeg pend) = true := by
  cases pend with
  | none => rfl
  | some p =>
      obtain ⟨asst, blockRev⟩ := p
      obtain ⟨hrole, htc, hblock⟩ := hinv asst blockRev rfl
      simp only [flushSeg]
      by_cases hkeep : expectedIds asst.toolCalls ≠ [] ∧
          ((expectedIds asst.toolCalls).all fun i => i ∈ blockIds blockRev.reverse) = true
      · rw [if_pos hkeep]
        have hnt : ¬ asst.role = Role.tool := by rw [hrole]; intro hx; cases hx
        have hA : asst.role = Role.assistant ∧ asst.toolCalls ≠ [] := ⟨hrole, htc⟩
        simp only [toolBlocksOKSt]
        rw [if_neg hnt, if_pos hA,
          toolBlocksOKSt_toolrun _ _ (fun m hm => hblock m (List.mem_reverse.mp hm)) []]
        simp only [checkPend, Bool.true_and, Bool.and_eq_true, decide_eq_true_eq,
          List.all_eq_true]
        refine ⟨hkeep.1, fun e hee => ?_⟩
        have he2 := (List.all_eq_true.mp hkeep.2) e hee
        have hne := expectedIds_ne_empty asst.toolCalls e hee
        have he3 : e ∈ blockIds blockRev.reverse := by simpa using he2
        have he4 : e ∈ blockRev.reverse.map Message.toolCallId :=
          (mem_blockIds e blockRev.reverse hne).mp he3
        simpa [List.mem_reverse] using he4
      · rw [if_neg hkeep]
        have hny : ¬ asst.role ≠ Role.assistant := fun hh => hh hrole
        simp only [assistant_without_tool_calls]
        rw [if_neg hny, if_neg htc]
        by_cases hcont : asst.content = ""
        · rw [if_pos hcont]; rfl
        · rw [if_neg hcont]
          simp [toolBlocksOKSt, checkPend]

/-- The scan invariant is preserved and every successful output satisfies
the block invariant. -/
theorem normSt_blocks_ok (msgs : List Message) :
    ∀ (pend : Option (Message × List Message)) (out : List Message),
      (∀ asst blockRev, pend = some (asst, blockRev) →
        asst.role = Role.assistant ∧ asst.toolCalls ≠ [] ∧
          ∀ m ∈ blockRev, m.role = Role.tool) →
      normSt pend msgs = some out → toolBlocksOKSt none out = true := by
  induction msgs with
  | nil =>
      intro pend out hinv h
      simp only [normSt, Option.some_inj] at h
      rw [← h]
      exact flushSeg_blocks_ok pend hinv
  | cons m rest ih =>
      intro pend out hinv h
      simp only [normSt] at h
      by_cases hm : m.role = Role.tool
      · rw [if_pos hm] at h
        cases pend with
        | none =>
            by_cases hid : m.toolCallId = ""
            · rw [if_pos hid] at h; cases h
            · rw [if_neg hid] at h
              exact ih none out (fun a b hab => by cases hab) h
        | some p =>
            obtain ⟨asst, blockRev⟩ := p
            refine ih (some (asst, m :: blockRev)) out ?_ h
            intro a b hab
            injection hab with h2
            injection h2 with h3 h4
            subst h3; subst h4
            obtain ⟨r1, r2, r3⟩ := hinv asst blockRev rfl
            refine ⟨r1, r2, fun x hx => ?_⟩
            rcases List.mem_cons.mp hx with rfl | hx2
            · exact hm
            · exact r3 x hx2
      · rw [if_neg hm] at h
        by_cases hA : m.role = Role.assistant ∧ m.toolCalls ≠ []
        · rw [if_pos hA] at h
          by_cases hN : (m.toolCalls.all fun c => c.name ≠ "") = true
          · rw [if_pos hN] at h
            obtain ⟨tail, htail, heq⟩ := Option.map_eq_some'.mp h
            have h1 := ih (some (m, [])) tail (fun a b hab => by
              injection hab with h2
              injection h2 with h3 h4
              subst h3; subst h4
              exact ⟨hA.1, hA.2, by simp⟩) htail
            rw [← heq]
            exact toolBlocksOKSt_append _ none _ (flushSeg_blocks_ok pend hinv) h1
          · rw [if_neg hN] at h; cases h
        · rw [if_neg hA] at h
          obtain ⟨tail, htail, heq⟩ := Option.map_eq_some'.mp h
          have h1 := ih none tail (fun a b hab => by cases hab) htail
          rw [← heq]
          refine toolBlocksOKSt_append _ none _ (flushSeg_blocks_ok pend hinv) ?_
          simp [toolBlocksOKSt, hm, hA, checkPend, h1]

/-- C1 (counterexample): the normalizer keeps a tool block whenever every
*expected* id is answered, even if the block also holds a tool message
whose id is *not* among the assistant's `tool_calls`; that extra tool
message survives normalization and violates the claimed invariant. -/
theorem normalize_ordering_cex :
    normalize_messages_for_llm
        [{ role := Role.assistant, toolCalls := [⟨"1", "f", .parsed {}⟩] },
         { role := Role.tool, content := "r1", toolCallId := "1" },
         { role := Role.tool, content := "r2", toolCallId := "2" }] =
      some
        [{ role := Role.assistant, toolCalls := [⟨"1", "f", .parsed {}⟩] },
         { role := Role.tool, content := "r1", toolCallId := "1" },
         { role := Role.tool, content := "r2", toolCallId := "2" }] ∧
    toolOrderingOK
        [{ role := Role.assistant, toolCalls := [⟨"1", "f", .parsed {}⟩] },
         { role := Role.tool, content := "r1", toolCallId := "1" },
         { role := Role.tool, content := "r2", toolCallId := "2" }] = false := by
  constructor
  · rfl
  · rfl

/-- C1 (amended): every successful output of the normalizer satisfies the
block invariant `toolBlocksOK`: each tool message sits in a contiguous
block opened by an assistant message carrying `tool_calls`, and every
nonempty id of that assistant's `tool_calls` is answered within the block
(a kept block may additionally carry tool messages with foreign ids);
orphaned top-level tool messages are dropped and unsatisfied assistant
`tool_calls` are stripped down to the assistant's content (the assistant
is dropped when it has none). -/
theorem normalize_messages_blocks_ok (msgs out : List Message)
    (h : normalize_messages_for_llm msgs = some out) : toolBlocksOK out = true :=
  normSt_blocks_ok msgs none out (fun a b hab => by cases hab) h

/-- C1 (witness): the amended theorem applied at a concrete history with an
orphan tool message and a dangling assistant `tool_calls`. -/
theorem normalize_messages_blocks_ok_witness :
    normalize_messages_for_llm
        [{ role := Role.tool, content := "orphan", toolCallId := "9" },
         { role := Role.assistant, content := "hi",
           toolCalls := [⟨"1", "f", .parsed {}⟩] },
         { role := Role.user, content := "u" }] =
      some [{ role := Role.assistant, content := "hi" },
            { role := Role.user, content := "u" }] ∧
    toolBlocksOK [{ role := Role.assistant, content := "hi" },
            { role := Role.user, content := "u" }] = true :=
  ⟨rfl,
    normalize_messages_blocks_ok
      [{ role := Role.tool, content := "orphan", toolCallId := "9" },
       { role := Role.assistant, content := "hi",
         toolCalls := [⟨"1", "f", .parsed {}⟩] },
       { role := Role.user, content := "u" }]
      [{ role := Role.assistant, content := "hi" },
       { role := Role.user, content := "u" }] rfl⟩

/-! ## C9: the planner's complexity gate -/

/-- C9: `is_complex_task text` is true exactly when the whitespace-separated
word count is at least 24, or the text contains at least 2 newlines, or at
least 2 sentence-terminating periods, or some keyword of the fixed
connective set occurs in the lowercased text padded with single spaces. -/
theorem is_complex_task_iff (text : String) :
    is_complex_task text = true ↔
      24 ≤ wordCount text ∨ 2 ≤ countChar text '\n' ∨ 2 ≤ countChar text '.' ∨
        ∃ k ∈ complexityKeywords, containsSub k (" " ++ strLower text ++ " ") = true := by
  unfold is_complex_task
  by_cases h1 : 24 ≤ wordCount text
  · simp [h1]
  · rw [if_neg h1]
    by_cases h2 : 2 ≤ countChar text '\n'
    · simp [h1, h2]
    · rw [if_neg h2]
      by_cases h3 : 2 ≤ countChar text '.'
      · simp [h1, h2, h3]
      · rw [if_neg h3]
        simp [h1, h2, h3, List.any_eq_true]

/-! ## Path lemmas: canonical paths survive rendering and re-resolution -/

theorem splitSlash_no_slash (l : List Char) : ∀ p ∈ splitSlash l, '/' ∉ p := by
  induction l with
  | nil =>
      intro p hp
      simp only [splitSlash, List.mem_singleton] at hp
      simp [hp]
  | cons c rest ih =>
      intro p hp
      by_cases hc : c = '/'
      · rw [show splitSlash (c :: rest) = [] :: splitSlash rest by
          simp [splitSlash, hc]] at hp
        rcases List.mem_cons.mp hp with rfl | hp2
        · simp
        · exact ih p hp2
      · rw [show splitSlash (c :: rest) =
            (match splitSlash rest with
              | h :: t => (c :: h) :: t
              | [] => [[c]]) by simp [splitSlash, hc]] at hp
        cases hsp : splitSlash rest with
        | nil =>
            rw [hsp] at hp
            simp only [List.mem_singleton] at hp
            subst hp
            exact fun hx => hc (List.mem_singleton.mp hx).symm
        | cons h t =>
            rw [hsp] at hp
            rcases List.mem_cons.mp hp with rfl | hp2
            · intro hmem
              rcases List.mem_cons.mp hmem with h1 | h2
              · exact hc h1.symm
              · exact ih h (by rw [hsp]; exact List.mem_cons_self h t) h2
            · exact ih p (by rw [hsp]; exact List.mem_cons_of_mem h hp2)

theorem resolveComps_clean (comps : List (List Char)) :
    ∀ stack, cleanPath stack = true → (∀ p ∈ comps, '/' ∉ p) →
      cleanPath (resolveComps stack comps) = true := by
  induction comps with
  | nil => intro stack hs _; simpa [resolveComps] using hs
  | cons c rest ih =>
      intro stack hs hns
      simp only [resolveComps]
      by_cases h1 : c = [] ∨ c = ['.']
      · rw [if_pos h1]
        exact ih stack hs fun p hp => hns p (List.mem_cons_of_mem c hp)
      · rw [if_neg h1]
        by_cases h2 : c = ['.', '.']
        · rw [if_pos h2]
          refine ih stack.dropLast ?_ fun p hp => hns p (List.mem_cons_of_mem c hp)
          simp only [cleanPath, List.all_eq_true] at hs ⊢
          exact fun x hx => hs x ((List.dropLast_sublist stack).subset hx)
        · rw [if_neg h2]
          refine ih (stack ++ [c]) ?_ fun p hp => hns p (List.mem_cons_of_mem c hp)
          simp only [cleanPath, List.all_eq_true] at hs ⊢
          intro x hx
          rcases List.mem_append.mp hx with hx1 | hx2
          · exact hs x hx1
          · rw [List.mem_singleton.mp hx2]
            have hc1 : ¬ c = [] := fun h => h1 (Or.inl h)
            have hc2 : ¬ c = ['.'] := fun h => h1 (Or.inr h)
            have hc4 : '/' ∉ c := hns c (List.mem_cons_self c rest)
            simp [cleanComp, hc1, hc2, h2, hc4]

theorem canonicalizeC_clean (cwd home : List (List Char)) (p : List Char)
    (hc : cleanPath cwd = true) (hh : cleanPath home = true) :
    cleanPath (canonicalizeC cwd home p) = true := by
  unfold canonicalizeC
  split
  · exact resolveComps_clean _ [] rfl (splitSlash_no_slash _)
  · by_cases h1 : p = ['~']
    · rw [if_pos h1]; exact hh
    · rw [if_neg h1]
      by_cases h2 : p.take 2 = ['~', '/']
      · rw [if_pos h2]
        exact resolveComps_clean _ home hh (splitSlash_no_slash _)
      · rw [if_neg h2]
        exact resolveComps_clean _ cwd hc (splitSlash_no_slash _)

theorem splitSlash_of_no_slash (a : List Char) (h : '/' ∉ a) : splitSlash a = [a] := by
  induction a with
  | nil => rfl
  | cons c rest ih =>
      have hc : ¬ c = '/' := fun hx => h (by rw [hx]; exact List.mem_cons_self _ _)
      have hr : splitSlash rest = [rest] := ih fun hx => h (List.mem_cons_of_mem c hx)
      simp [splitSlash, hc, hr]

theorem splitSlash_append (a t : List Char) (h : '/' ∉ a) :
    splitSlash (a ++ '/' :: t) = a :: splitSlash t := by
  induction a with
  | nil => simp [splitSlash]
  | cons c rest ih =>
      have hc : ¬ c = '/' := fun hx => h (by rw [hx]; exact List.mem_cons_self _ _)
      have hr := ih fun hx => h (List.mem_cons_of_mem c hx)
      simp [splitSlash, hc, hr]

theorem splitSlash_intercalate (l : List (List Char)) (hl : l ≠ [])
    (h : ∀ p ∈ l, '/' ∉ p) : splitSlash (intercalateSlash l) = l := by
  induction l with
  | nil => exact absurd rfl hl
  | cons x rest ih =>
      cases rest with
      | nil =>
          simp only [intercalateSlash]
          exact splitSlash_of_no_slash x (h x (List.mem_cons_self _ _))
      | cons y t =>
          rw [show intercalateSlash (x :: y :: t) = x ++ '/' :: intercalateSlash (y :: t)
            from rfl]
          rw [splitSlash_append x _ (h x (List.mem_cons_self _ _))]
          rw [ih (by simp) fun p hp => h p (List.mem_cons_of_mem x hp)]

theorem resolveComps_of_clean (comps : List (List Char)) :
    ∀ stack, (∀ c ∈ comps, cleanComp c = true) →
      resolveComps stack comps = stack ++ comps := by
  induction comps with
  | nil => intro stack _; simp [resolveComps]
  | cons c rest ih =>
      intro stack hclean
      have hc := hclean c (List.mem_cons_self _ _)
      simp only [cleanComp, Bool.and_eq_true, decide_eq_true_eq] at hc
      obtain ⟨⟨⟨h1, h2⟩, h3⟩, -⟩ := hc
      simp only [resolveComps]
      rw [if_neg (by tauto), if_neg h3]
      rw [ih (stack ++ [c]) fun x hx => hclean x (List.mem_cons_of_mem c hx)]
      simp

/-- Re-canonicalizing a rendered canonical path gives the path back. -/
theorem canonicalize_render (cwd home : List (List Char)) (l : List (List Char))
    (h : cleanPath l = true) : canonicalize cwd home (renderPath l) = l := by
  have hdata : (renderPath l).data = '/' :: intercalateSlash l := rfl
  unfold canonicalize
  rw [hdata]
  have hmatch : canonicalizeC cwd home ('/' :: intercalateSlash l) =
      resolveComps [] (splitSlash ('/' :: intercalateSlash l)) := rfl
  rw [hmatch]
  have hsplit0 : splitSlash ('/' :: intercalateSlash l) = [] :: splitSlash (intercalateSlash l) := by
    simp [splitSlash]
  rw [hsplit0]
  simp only [cleanPath, List.all_eq_true] at h
  cases hl : l with
  | nil => rfl
  | cons x rest =>
      rw [← hl]
      have hns : ∀ p ∈ l, '/' ∉ p := by
        intro p hp
        have := h p hp
        simp only [cleanComp, Bool.and_eq_true] at this
        have h2 := this.2
        simpa using h2
      rw [splitSlash_intercalate l (by rw [hl]; simp) hns]
      rw [show resolveComps [] ([] :: l) = resolveComps [] l by simp [resolveComps]]
      rw [resolveComps_of_clean l [] fun c hcm => h c hcm]
      rfl

/-! ## C5: directory approval covers the subtree, idempotently -/

/-- C5: after `approve_dir D`, `is_dir_approved P` is true for every `P`
whose canonical form equals or descends from the canonical form of `D`
(given well-formed cwd/home components), and approving two paths with the
same canonical form twice leaves the ledger unchanged. -/
theorem approve_dir_covers_and_idem :
    (∀ (cwd home : List (List Char)) (a : Approvals) (D P : String),
      cleanPath cwd = true → cleanPath home = true →
      List.IsPrefix (canonicalize cwd home D) (canonicalize cwd home P) →
      is_dir_approved cwd home (approve_dir cwd home a D) P = true) ∧
    (∀ (cwd home : List (List Char)) (a : Approvals) (D D' : String),
      canonicalize cwd home D = canonicalize cwd home D' →
      approve_dir cwd home (approve_dir cwd home a D) D' = approve_dir cwd home a D) := by
  constructor
  · intro cwd home a D P hc hh hpre
    have hmem : renderPath (canonicalize cwd home D) ∈ (approve_dir cwd home a D).dirs := by
      simp only [approve_dir]
      by_cases hin : renderPath (canonicalize cwd home D) ∈ a.dirs
      · rw [if_pos hin]; exact hin
      · rw [if_neg hin]; simp
    simp only [is_dir_approved, List.any_eq_true]
    refine ⟨renderPath (canonicalize cwd home D), hmem, ?_⟩
    rw [canonicalize_render cwd home (canonicalize cwd home D)
      (canonicalizeC_clean cwd home _ hc hh)]
    simp only [Bool.or_eq_true]
    right
    exact List.isPrefixOf_iff_prefix.mpr hpre
  · intro cwd home a D D' heq
    have hmem : renderPath (canonicalize cwd home D') ∈ (approve_dir cwd home a D).dirs := by
      rw [← heq]
      simp only [approve_dir]
      by_cases hin : renderPath (canonicalize cwd home D) ∈ a.dirs
      · rw [if_pos hin]; exact hin
      · rw [if_neg hin]; simp
    simp only [approve_dir] at hmem ⊢
    rw [if_pos hmem]

/-- C5 (witness): approving `/a/b` covers `/a/b/c`, and re-approving the
same canonical directory (spelled `/a/b/.`) changes nothing. -/
theorem approve_dir_covers_and_idem_witness :
    is_dir_approved [] [] (approve_dir [] [] ⟨[], []⟩ "/a/b") "/a/b/c" = true ∧
    approve_dir [] [] (approve_dir [] [] ⟨[], []⟩ "/a/b") "/a/b/." =
      approve_dir [] [] ⟨[], []⟩ "/a/b" :=
  ⟨approve_dir_covers_and_idem.1 [] [] ⟨[], []⟩ "/a/b" "/a/b/c" (by decide) (by decide)
      (by decide),
    approve_dir_covers_and_idem.2 [] [] ⟨[], []⟩ "/a/b" "/a/b/." (by decide)⟩

/-! ## C6: shell approval matching -/

theorem mem_approve_shell (a : Approvals) (c : String) (w : Option String) (k : String) :
    k ∈ (approve_shell a c w).shell ↔ k ∈ a.shell ∨ k = shell_key c w := by
  simp only [approve_shell]
  by_cases hin : shell_key c w ∈ a.shell
  · rw [if_pos hin]
    constructor
    · exact Or.inl
    · rintro (h | rfl)
      · exact h
      · exact hin
  · rw [if_neg hin]
    simp [List.mem_append]

theorem foldl_approve_shell_mem (pairs : List (String × Option String)) :
    ∀ (a : Approvals) (k : String),
      k ∈ (pairs.foldl (fun acc p => approve_shell acc p.1 p.2) a).shell ↔
        k ∈ a.shell ∨ ∃ p ∈ pairs, shell_key p.1 p.2 = k := by
  induction pairs with
  | nil => intro a k; simp
  | cons p ps ih =>
      intro a k
      rw [List.foldl_cons, ih (approve_shell a p.1 p.2) k]
      rw [mem_approve_shell]
      constructor
      · rintro ((h | h) | ⟨q, hq, hqk⟩)
        · exact Or.inl h
        · exact Or.inr ⟨p, List.mem_cons_self p ps, h.symm⟩
        · exact Or.inr ⟨q, List.mem_cons_of_mem p hq, hqk⟩
      · rintro (h | ⟨q, hq, hqk⟩)
        · exact Or.inl (Or.inl h)
        · rcases List.mem_cons.mp hq with rfl | hq2
          · exact Or.inl (Or.inr hqk.symm)
          · exact Or.inr ⟨q, hq2, hqk⟩

theorem append_newline_inj (c1 : List Char) :
    ∀ (c2 w1 w2 : List Char), '\n' ∉ w1 → '\n' ∉ w2 →
      c1 ++ '\n' :: w1 = c2 ++ '\n' :: w2 → c1 = c2 ∧ w1 = w2 := by
  induction c1 with
  | nil =>
      intro c2 w1 w2 h1 h2 h
      cases c2 with
      | nil => simpa using h
      | cons y c2' =>
          simp only [List.nil_append, List.cons_append, List.cons.injEq] at h
          obtain ⟨rfl, h⟩ := h
          exact absurd (h ▸ (List.mem_append_right c2' (List.mem_cons_self _ _))) h1
  | cons x c1' ih =>
      intro c2 w1 w2 h1 h2 h
      cases c2 with
      | nil =>
          simp only [List.cons_append, List.nil_append, List.cons.injEq] at h
          obtain ⟨rfl, h⟩ := h
          exact absurd (h.symm ▸ (List.mem_append_right c1' (List.mem_cons_self _ _))) h2
      | cons y c2' =>
          simp only [List.cons_append, List.cons.injEq] at h
          obtain ⟨rfl, h⟩ := h
          obtain ⟨hc, hw⟩ := ih c2' w1 w2 h1 h2 h
          exact ⟨by rw [hc], hw⟩

theorem shell_key_inj (c1 c2 : String) (w1 w2 : Option String)
    (h1 : '\n' ∉ (w1.getD "").data) (h2 : '\n' ∉ (w2.getD "").data) :
    shell_key c1 w1 = shell_key c2 w2 ↔ c1 = c2 ∧ (w1.getD "") = (w2.getD "") := by
  constructor
  · intro h
    have hdata : c1.data ++ '\n' :: (w1.getD "").data =
        c2.data ++ '\n' :: (w2.getD "").data := by
      have := congrArg String.data h
      simpa [shell_key, String.data_append] using this
    obtain ⟨hc, hw⟩ := append_newline_inj c1.data c2.data _ _ h1 h2 hdata
    exact ⟨String.ext_iff.mpr hc, String.ext_iff.mpr hw⟩
  · rintro ⟨rfl, hw⟩
    simp [shell_key, hw]

/-- C6 (counterexample): the `(command, workdir)` match is really a match
on the joined key `command ++ "\n" ++ workdir`, so a newline inside a
command collides with a different pair: after approving command `"a\nb"`
with no workdir, the query for command `"a"` in workdir `"b\n"` reports
approved, although approve_shell was never called with command `"a"`. -/
theorem shell_approval_collision_cex :
    is_shell_approved (approve_shell ⟨[], []⟩ "a\nb" none) "a" (some "b\n") = true ∧
      ¬ ("a\nb" = "a" ∧ ((none : Option String).getD "") = ((some "b\n").getD "")) := by
  constructor
  · rfl
  · rintro ⟨h, -⟩
    exact absurd h (by decide)

/-- C6 (amended): starting from an empty ledger and any sequence of
`approve_shell` calls, `is_shell_approved(c, w)` is true iff some approved
pair has the same joined key `command ++ "\n" ++ (workdir or "")`; when no
workdir (approved or queried) contains a newline this is exactly "same
command and same workdir, with an absent workdir normalized to the empty
string"; and approving a pair whose key is already present changes
nothing. -/
theorem shell_approval_exact_match :
    (∀ (pairs : List (String × Option String)) (c : String) (w : Option String),
      is_shell_approved (pairs.foldl (fun acc p => approve_shell acc p.1 p.2) ⟨[], []⟩) c w
          = true ↔ ∃ p ∈ pairs, shell_key p.1 p.2 = shell_key c w) ∧
    (∀ (pairs : List (String × Option String)) (c : String) (w : Option String),
      (∀ p ∈ pairs, '\n' ∉ (p.2.getD "").data) → '\n' ∉ (w.getD "").data →
      (is_shell_approved (pairs.foldl (fun acc p => approve_shell acc p.1 p.2) ⟨[], []⟩) c w
          = true ↔ ∃ p ∈ pairs, p.1 = c ∧ (p.2.getD "") = (w.getD ""))) ∧
    (∀ (a : Approvals) (c c' : String) (w w' : Option String),
      shell_key c w = shell_key c' w' →
      approve_shell (approve_shell a c w) c' w' = approve_shell a c w) := by
  refine ⟨?_, ?_, ?_⟩
  · intro pairs c w
    simp only [is_shell_approved, decide_eq_true_eq]
    rw [foldl_approve_shell_mem pairs ⟨[], []⟩ (shell_key c w)]
    simp
  · intro pairs c w hp hw
    simp only [is_shell_approved, decide_eq_true_eq]
    rw [foldl_approve_shell_mem pairs ⟨[], []⟩ (shell_key c w)]
    simp only [List.not_mem_nil, false_or]
    constructor
    · rintro ⟨p, hmem, hkey⟩
      exact ⟨p, hmem, (shell_key_inj p.1 c p.2 w (hp p hmem) hw).mp hkey⟩
    · rintro ⟨p, hmem, hc, hwd⟩
      exact ⟨p, hmem, (shell_key_inj p.1 c p.2 w (hp p hmem) hw).mpr ⟨hc, hwd⟩⟩
  · intro a c c' w w' hkey
    have hmem : shell_key c' w' ∈ (approve_shell a c w).shell := by
      rw [← hkey]
      simp only [approve_shell]
      by_cases hin : shell_key c w ∈ a.shell
      · rw [if_pos hin]; exact hin
      · rw [if_neg hin]; simp
    simp only [approve_shell] at hmem ⊢
    rw [if_pos hmem]

/-- C6 (witness): the amended theorem at a concrete ledger. -/
theorem shell_approval_exact_match_witness :
    (is_shell_approved
        ([(("ls", some "/tmp") : String × Option String)].foldl
          (fun acc p => approve_shell acc p.1 p.2) ⟨[], []⟩) "ls" (some "/tmp") = true ↔
      ∃ p ∈ [(("ls", some "/tmp") : String × Option String)],
        p.1 = "ls" ∧ (p.2.getD "") = ((some "/tmp").getD "")) ∧
    approve_shell (approve_shell ⟨[], []⟩ "ls" (some "")) "ls" none =
      approve_shell ⟨[], []⟩ "ls" (some "") :=
  ⟨shell_approval_exact_match.2.1 [("ls", some "/tmp")] "ls" (some "/tmp")
      (by decide) (by decide),
    shell_approval_exact_match.2.2 ⟨[], []⟩ "ls" "ls" (some "") none rfl⟩

/-! ## C4: the approval gate scans in order with the specified scopes -/

theorem first_missing_approval_spec_cons (cwd home : List (List Char))
    (skillTools : List String) (a : Approvals) (c : ToolCall) (rest : List ToolCall) :
    first_missing_approval_spec cwd home skillTools a (c :: rest) =
      match requestScopeSpec cwd home skillTools c with
      | some r =>
          if coveredBySpec cwd home a r then
            first_missing_approval_spec cwd home skillTools a rest
          else some r
      | none => first_missing_approval_spec cwd home skillTools a rest := by
  simp only [first_missing_approval_spec, List.filterMap_cons]
  cases requestScopeSpec cwd home skillTools c with
  | none => rfl
  | some r =>
      by_cases hcov : coveredBySpec cwd home a r = true
      · simp [hcov]
      · simp [hcov]

/-- C4: the approval gate scans the batch in the order the model emitted
it, skips skill tools and the safe tools, uses `(command, workdir)` as the
scope of `run_shell`, the target directory itself for
`list_dir`/`create_dir` and the target's parent for
`read_file`/`write_file`, and returns the first request the ledger does
not cover (`none` when all are covered) — i.e. it coincides with the gate
written from the specification's words. -/
theorem first_missing_approval_eq_spec (cwd home : List (List Char))
    (skillTools : List String) (a : Approvals) (calls : List ToolCall) :
    first_missing_approval cwd home skillTools a calls =
      first_missing_approval_spec cwd home skillTools a calls := by
  induction calls with
  | nil => rfl
  | cons c rest ih =>
      rw [first_missing_approval_spec_cons]
      by_cases hsafe : c.name ∈ skillTools ∨ c.name ∈ safeToolNames
      · simp only [first_missing_approval, if_pos hsafe, requestScopeSpec]
        exact ih
      · by_cases hshell : c.name = "run_shell"
        · simp only [first_missing_approval, if_neg hsafe, if_pos hshell,
            requestScopeSpec, coveredBySpec]
          by_cases happ : is_shell_approved a ((argsOrEmpty c.args).command.getD "")
              (argsOrEmpty c.args).workdir = true
          · rw [if_pos happ, if_pos happ]
            exact ih
          · rw [if_neg happ, if_neg happ]
        · by_cases hfs : c.name ∈ fsToolNames
          · simp only [first_missing_approval, if_neg hsafe, if_neg hshell, if_pos hfs,
              requestScopeSpec]
            cases hreq : required_dir_for_tool cwd home c.name (argsOrEmpty c.args) with
            | none => simpa using ih
            | some d =>
                simp only [Option.map_some', coveredBySpec]
                by_cases happ : is_dir_approved cwd home a (renderPath d) = true
                · rw [if_pos happ, if_pos happ]
                  exact ih
                · rw [if_neg happ, if_neg happ]
          · simp only [first_missing_approval, if_neg hsafe, if_neg hshell, if_neg hfs,
              requestScopeSpec]
            exact ih

/-! ## C8: invalid tool-argument JSON -/

/-- C8 (counterexample): a tool call naming an unknown tool fails the
known-tool assertion before its arguments are parsed, so a call with
invalid JSON arguments and an unknown name raises (`none`) instead of
producing the literal error result. -/
theorem execute_unknown_tool_raises :
    execute_tool_calls envC [⟨"id1", "frobnicate", .invalid "boom"⟩] = none := rfl

/-- C8 (amended): for every tool call that names a known built-in or skill
tool and whose arguments are not valid JSON, execution contributes exactly
one tool-result message whose content is the literal
`"ERROR: invalid JSON arguments: "` followed by the parse-error detail; it
raises nothing, dispatches nothing, injects no system message and emits no
notice for that call (the rest of the batch is processed unchanged). -/
theorem execute_invalid_json (env : LoopEnv) (c : ToolCall) (rest : List ToolCall)
    (detail : String) (hargs : c.args = .invalid detail) (hname : c.name ≠ "")
    (hknown : isSkillTool env.skills c.name = true ∨ c.name ∈ knownToolNames) :
    execute_tool_calls env (c :: rest) =
      (execute_tool_calls env rest).map fun out =>
        { out with toolMessages :=
            ⟨Role.tool, "ERROR: invalid JSON arguments: " ++ detail, [], c.id⟩ ::
              out.toolMessages } := by
  simp only [execute_tool_calls]
  rw [if_neg hname, if_neg (not_not_intro hknown), hargs]

/-- C8 (witness): the amended theorem applied at a concrete batch. -/
theorem execute_invalid_json_witness :
    execute_tool_calls envC [⟨"id1", "read_file", .invalid "boom"⟩] =
      some ⟨[⟨Role.tool, "ERROR: invalid JSON arguments: boom", [], "id1"⟩], [], [], []⟩ := by
  rw [execute_invalid_json envC ⟨"id1", "read_file", .invalid "boom"⟩ [] "boom" rfl
    (by decide) (by right; decide)]
  rfl

/-! ## C7: denial-with-feedback -/

/-- C7: any reply other than `y` (after strip/lowercase) to a shell or
directory approval suspension leaves the ledger untouched, discards the
captured tool-call batch (the outcome does not depend on it), and resumes
with a fresh completion over the conversation extended by the stripped
assistant message and the synthetic denial user message; the prior pending
record is replaced by whatever the fresh run suspends on (or cleared). -/
theorem process_pending_denial (env : LoopEnv) (cwd home : List (List Char))
    (appr : Approvals) (req : ApprovalRequest) (asst : Option Message)
    (tc : List ToolCall) (incoming : String) (conv : List Message) (model : Model)
    (maxTurns : Nat) (script : List Message) (loaded : List String)
    (hreq : ∀ i, req ≠ .askUser i) (hny : ¬ strLower (strTrim incoming) = "y") :
    process_pending_reply env cwd home appr ⟨req, asst, tc⟩ incoming conv model maxTurns
        script loaded =
      process_pending_reply env cwd home appr ⟨req, asst, []⟩ incoming conv model maxTurns
        script loaded ∧
    ∀ result,
      process_pending_reply env cwd home appr ⟨req, asst, tc⟩ incoming conv model maxTurns
          script loaded = some result →
      result.approvals = appr ∧
      ∃ r, run_llm_loop env cwd home appr script
          (conv ++ (asst.bind assistant_without_tool_calls).toList ++ [denialMsg incoming])
          none none loaded = some r ∧
        result.responses = r.toolNotices ++ r.responses ∧
        result.pendingNext = r.pending ∧ result.invoked = r.invoked := by
  cases req
  case askUser i => exact absurd rfl (hreq i)
  all_goals
    refine ⟨by simp only [process_pending_reply, if_neg hny], ?_⟩
  all_goals
    intro result hres
    simp only [process_pending_reply, if_neg hny] at hres
    cases hrun : run_llm_loop env cwd home appr script
        (conv ++ (asst.bind assistant_without_tool_calls).toList ++ [denialMsg incoming])
        none none loaded with
    | none => rw [hrun] at hres; cases hres
    | some r =>
        rw [hrun] at hres
        injection hres with hres
        rw [← hres]
        exact ⟨rfl, r, rfl, rfl, rfl, rfl⟩

/-- C7 (witness): denying a captured shell batch with feedback `"no"`. -/
theorem process_pending_denial_witness :
    process_pending_reply envC [] [] ⟨[], []⟩
        ⟨.shell "rm -rf x" none,
          some ⟨Role.assistant, "", [⟨"1", "run_shell", .parsed {command := some "rm -rf x"}⟩], ""⟩,
          [⟨"1", "run_shell", .parsed {command := some "rm -rf x"}⟩]⟩
        "no" [] modelC 1 [{ role := Role.assistant, content := "understood" }] [] =
      process_pending_reply envC [] [] ⟨[], []⟩
        ⟨.shell "rm -rf x" none,
          some ⟨Role.assistant, "", [⟨"1", "run_shell", .parsed {command := some "rm -rf x"}⟩], ""⟩,
          []⟩
        "no" [] modelC 1 [{ role := Role.assistant, content := "understood" }] [] :=
  (process_pending_denial envC [] [] ⟨[], []⟩ (.shell "rm -rf x" none)
    (some ⟨Role.assistant, "", [⟨"1", "run_shell", .parsed {command := some "rm -rf x"}⟩], ""⟩)
    [⟨"1", "run_shell", .parsed {command := some "rm -rf x"}⟩]
    "no" [] modelC 1 [{ role := Role.assistant, content := "understood" }] []
    (fun i h => ApprovalRequest.noConfusion h) (by decide)).1

/-! ## C10: `ask_user` short-circuits its whole batch -/

/-- C10: (a) whenever a nonempty batch contains an `ask_user` call, the
loop suspends at the first such call before injecting, dispatching or
recording anything: the outcome carries the question, `new_messages =
none`, a pending record capturing the assistant message, the call id and
an empty batch, and the invocation log is unchanged — so no sibling call
produces a tool-result message or an effect.  (b) Resuming that suspension
appends only the captured assistant message and one tool message carrying
the user's reply under the captured call id, requests a fresh completion
(no initial batch), and leaves the ledger untouched. -/
theorem ask_user_short_circuit :
    (∀ (env : LoopEnv) (cwd home : List (List Char)) (appr : Approvals) (asst : Message)
      (tc : List ToolCall) (st : LoopState) (c : ToolCall),
      tc.find? (fun c => c.name = "ask_user") = some c →
      handleBatch env cwd home appr asst tc st =
        some (.done ⟨[questionOf c], none, some ⟨.askUser c.id, some asst, []⟩,
          st.notices ++ tool_call_notices tc, st.invoked⟩)) ∧
    (∀ (env : LoopEnv) (cwd home : List (List Char)) (appr : Approvals)
      (asst : Option Message) (tcs : List ToolCall) (id incoming : String)
      (conv : List Message) (model : Model) (maxTurns : Nat) (script : List Message)
      (loaded : List String) (result : ReplyOutcome),
      process_pending_reply env cwd home appr ⟨.askUser id, asst, tcs⟩ incoming conv model
          maxTurns script loaded = some result →
      result.approvals = appr ∧
      ∃ r, run_llm_loop env cwd home appr script
          (conv ++ asst.toList ++ [askReplyMsg id incoming]) none none loaded = some r ∧
        result.responses = r.toolNotices ++ r.responses ∧
        result.pendingNext = r.pending ∧ result.invoked = r.invoked ∧
        result.conv = (match r.pending, r.newMessages with
          | none, some nm =>
              trim_messages (conv ++ asst.toList ++ [askReplyMsg id incoming] ++ nm)
                model maxTurns
          | _, _ => conv)) := by
  constructor
  · intro env cwd home appr asst tc st c hfind
    simp only [handleBatch, hfind]
  · intro env cwd home appr asst tcs id incoming conv model maxTurns script loaded result hres
    simp only [process_pending_reply] at hres
    cases hrun : run_llm_loop env cwd home appr script
        (conv ++ asst.toList ++ [askReplyMsg id incoming]) none none loaded with
    | none => rw [hrun] at hres; cases hres
    | some r =>
        rw [hrun] at hres
        injection hres with hres
        rw [← hres]
        exact ⟨rfl, r, rfl, rfl, rfl, rfl, rfl⟩

/-- C10 (witness): a batch holding `ask_user` next to a `run_shell` call
suspends with the question and executes nothing; answering the question
replays nothing of that batch and completes afresh. -/
theorem ask_user_short_circuit_witness :
    handleBatch envC [] [] ⟨[], []⟩
        ⟨Role.assistant, "", [⟨"7", "ask_user", .parsed {question := some "Which file?"}⟩,
          ⟨"8", "run_shell", .parsed {command := some "ls"}⟩], ""⟩
        [⟨"7", "ask_user", .parsed {question := some "Which file?"}⟩,
          ⟨"8", "run_shell", .parsed {command := some "ls"}⟩]
        ⟨[], [], [], [], [], []⟩ =
      some (.done ⟨["Which file?"], none,
        some ⟨.askUser "7",
          some ⟨Role.assistant, "", [⟨"7", "ask_user", .parsed {question := some "Which file?"}⟩,
            ⟨"8", "run_shell", .parsed {command := some "ls"}⟩], ""⟩, []⟩,
        [] ++ tool_call_notices
          [⟨"7", "ask_user", .parsed {question := some "Which file?"}⟩,
            ⟨"8", "run_shell", .parsed {command := some "ls"}⟩], []⟩) ∧
    ∃ result, process_pending_reply envC [] [] ⟨[], []⟩
        ⟨.askUser "7", some ⟨Role.assistant, "", [], ""⟩, []⟩ "that one" [] modelC 1
        [{ role := Role.assistant, content := "done" }] [] = some result ∧
      result.approvals = ⟨[], []⟩ := by
  constructor
  · exact ask_user_short_circuit.1 envC [] [] ⟨[], []⟩ _ _ ⟨[], [], [], [], [], []⟩
      ⟨"7", "ask_user", .parsed {question := some "Which file?"}⟩ rfl
  · refine ⟨process_pending_reply envC [] [] ⟨[], []⟩
        ⟨.askUser "7", some ⟨Role.assistant, "", [], ""⟩, []⟩ "that one" [] modelC 1
        [{ role := Role.assistant, content := "done" }] [] |>.get (by decide), ?_, ?_⟩
    · exact (Option.some_get _).symm
    · exact (ask_user_short_circuit.2 envC [] [] ⟨[], []⟩ (some ⟨Role.assistant, "", [], ""⟩)
        [] "7" "that one" [] modelC 1 [{ role := Role.assistant, content := "done" }] [] _
        (Option.some_get _).symm).1
